import Mathlib

set_option maxRecDepth 8000

/-
Verification of the BlockPool block-fetch coordinator (package blockchain).
The pool state, its operations and the per-height worker loop are embedded
as executable Lean definitions translated from the Go source; panics are
modelled as the none case of Option-valued operations.
-/

/-- Constant maxTries of the source: request attempts at a single peer. -/
def maxTries : Nat := 3

/-- Constant maxPendingRequests of the source: cap on unfilled requests. -/
def maxPendingRequests : Int := 50

/-- Constant maxTotalRequests of the source: cap on the request window. -/
def maxTotalRequests : Int := 100

/-- Constant maxRequestsPerPeer of the source: per-peer in-flight cap. -/
def maxRequestsPerPeer : Int := 20

/-- Abstraction of types.Block: the pool only ever reads the Height field. -/
structure Block where
  Height : Nat
deriving DecidableEq

/-- Peer record bpPeer: identifier, advertised tip height and in-flight
request count. The numRequests field is an int32 in the source; reachable
values are tiny, so it is modelled as Int. -/
structure bpPeer where
  id : String
  height : Nat
  numRequests : Int
deriving DecidableEq

/-- Request record bpRequest for one height of the window. -/
structure bpRequest where
  height : Nat
  peerId : String
  block : Option Block
deriving DecidableEq

/-- State of the BlockPool: the requests map, the base height, the two int32
counters and the peer registry. The Go map from peer id to record is modelled
as a list of records with distinct ids; the unspecified iteration order of the
Go map is played by the list order. Channels, mutexes and the atomic running
flag are concurrency plumbing and carry no claim-relevant state. -/
structure BlockPool where
  requests : Nat → Option bpRequest
  height : Nat
  numPending : Int
  numTotal : Int
  peers : List bpPeer

/-- NewBlockPool with a given start height (the egress channels are external). -/
def NewBlockPool (start : Nat) : BlockPool :=
  { requests := fun _ => none, height := start, numPending := 0, numTotal := 0, peers := [] }

/-- Conversion of the int32 numTotal to a Go uint, as in the expression
pool.height + uint(pool.numTotal) of the source. -/
def uint64 (i : Int) : Nat := (i % 18446744073709551616).toNat

/-- GetStatus: returns (height, numPending, numTotal), pool unchanged. -/
def GetStatus (s : BlockPool) : (Nat × Int × Int) × BlockPool :=
  ((s.height, s.numPending, s.numTotal), s)

/-- PeekTwoBlocks: the blocks stored at the base height and the next one,
each nil when the request is missing or unfilled; pool unchanged. -/
def PeekTwoBlocks (s : BlockPool) : (Option Block × Option Block) × BlockPool :=
  (((s.requests s.height).bind bpRequest.block,
    (s.requests (s.height + 1)).bind bpRequest.block), s)

/-- PopRequest: panics (none) unless the request at the base height exists and
is filled; otherwise deletes it, advances height and decrements numTotal. -/
def PopRequest (s : BlockPool) : Option BlockPool :=
  match s.requests s.height with
  | none => none
  | some r =>
    if r.block.isNone then none
    else
      some { s with
        requests := fun h2 => if h2 = s.height then none else s.requests h2,
        height := s.height + 1,
        numTotal := s.numTotal - 1 }

/-- Deletion of the record with the given id from the registry list
(delete on the Go peers map). -/
def removePeerL (pid : String) (ps : List bpPeer) : List bpPeer :=
  ps.filter (fun p => p.id != pid)

/-- RemovePeer. -/
def RemovePeer (s : BlockPool) (pid : String) : BlockPool :=
  { s with peers := removePeerL pid s.peers }

/-- RedoRequest: dereferences the request at the given height (a missing entry
makes the dereference of a nil pointer panic, modelled as none), panics when
its block is nil, and otherwise removes the supplying peer from the registry,
clears the block and the assignment and increments numPending. The respawn of
requestRoutine done by the source is worker behaviour, modelled separately. -/
def RedoRequest (s : BlockPool) (h : Nat) : Option BlockPool :=
  match s.requests h with
  | none => none
  | some r =>
    if r.block.isNone then none
    else
      some { s with
        requests := fun h2 =>
          if h2 = h then some { r with peerId := "", block := none } else s.requests h2,
        numPending := s.numPending + 1,
        peers := removePeerL r.peerId s.peers }

/-- hasBlock: whether a filled request exists at the height; pool unchanged. -/
def hasBlock (s : BlockPool) (h : Nat) : Bool × BlockPool :=
  ((match s.requests h with
    | some r => r.block.isSome
    | none => false), s)

/-- setPeerForRequest: records the assignment, silent no-op when the request
is gone. -/
def setPeerForRequest (s : BlockPool) (h : Nat) (pid : String) : BlockPool :=
  match s.requests h with
  | none => s
  | some r =>
    { s with requests := fun h2 =>
        if h2 = h then some { r with peerId := pid } else s.requests h2 }

/-- AddBlock: early return when the request at the height of the block is
missing, assigned to a different peer, or already filled; otherwise store the
block and decrement numPending. -/
def AddBlock (s : BlockPool) (b : Block) (pid : String) : BlockPool :=
  match s.requests b.Height with
  | none => s
  | some r =>
    if r.peerId ≠ pid then s
    else if r.block.isSome then s
    else
      { s with
        requests := fun h2 =>
          if h2 = b.Height then some { r with block := some b } else s.requests h2,
        numPending := s.numPending - 1 }

/-- Upsert of SetPeerHeight on the registry list: update the height of an
existing record, else append a fresh record with a zero in-flight count. -/
def setPeerHeightL (pid : String) (ht : Nat) : List bpPeer → List bpPeer
  | [] => [{ id := pid, height := ht, numRequests := 0 }]
  | p :: ps =>
    if p.id = pid then { p with height := ht } :: ps
    else p :: setPeerHeightL pid ht ps

/-- SetPeerHeight. -/
def SetPeerHeight (s : BlockPool) (pid : String) (ht : Nat) : BlockPool :=
  { s with peers := setPeerHeightL pid ht s.peers }

/-- Scan of pickIncrAvailablePeer over the registry: skip a peer at the cap
or below the wanted height, increment and return the first available one. -/
def pickIncrL (minH : Nat) : List bpPeer → Option bpPeer × List bpPeer
  | [] => (none, [])
  | p :: ps =>
    if maxRequestsPerPeer ≤ p.numRequests then
      ((pickIncrL minH ps).1, p :: (pickIncrL minH ps).2)
    else if p.height < minH then
      ((pickIncrL minH ps).1, p :: (pickIncrL minH ps).2)
    else
      (some { p with numRequests := p.numRequests + 1 },
       { p with numRequests := p.numRequests + 1 } :: ps)

/-- pickIncrAvailablePeer at pool level: selected peer and updated pool. -/
def pickIncrAvailablePeer (s : BlockPool) (minH : Nat) : Option bpPeer × BlockPool :=
  ((pickIncrL minH s.peers).1, { s with peers := (pickIncrL minH s.peers).2 })

/-- decrPeer on the registry list: decrement the record with the given id,
silent no-op when absent. -/
def decrPeerL (pid : String) : List bpPeer → List bpPeer
  | [] => []
  | p :: ps =>
    if p.id = pid then { p with numRequests := p.numRequests - 1 } :: ps
    else p :: decrPeerL pid ps

/-- decrPeer. -/
def decrPeer (s : BlockPool) (pid : String) : BlockPool :=
  { s with peers := decrPeerL pid s.peers }

/-- nextHeight. -/
def nextHeight (s : BlockPool) : Nat := s.height + uint64 s.numTotal

/-- makeRequest: unconditionally store an empty unassigned request at the
given height; increment the two counters exactly when the height equals
pool.height + uint(pool.numTotal). The spawn of requestRoutine done by the
source is worker behaviour, modelled separately. -/
def makeRequest (s : BlockPool) (h : Nat) : BlockPool :=
  if nextHeight s = h then
    { s with
      requests := fun h2 =>
        if h2 = h then some { height := h, peerId := "", block := none } else s.requests h2,
      numTotal := s.numTotal + 1,
      numPending := s.numPending + 1 }
  else
    { s with
      requests := fun h2 =>
        if h2 = h then some { height := h, peerId := "", block := none } else s.requests h2 }

/-- One externally driven operation on the pool. The runOnce constructor is a
single iteration of the body of the admission loop run; the remaining
constructors are the pool methods invoked by the network layer, the consumer
and the workers. -/
inductive Op where
  | runOnce : Op
  | addBlock : Block → String → Op
  | pop : Op
  | redo : Nat → Op
  | setPeerHeight : String → Nat → Op
  | removePeer : String → Op
  | pick : Nat → Op
  | decr : String → Op
  | setReqPeer : Nat → String → Op

/-- Effect of one operation on the pool state; none marks a panic. -/
def applyOp (s : BlockPool) : Op → Option BlockPool
  | Op.runOnce =>
    if maxPendingRequests ≤ s.numPending then some s
    else if maxTotalRequests ≤ s.numTotal then some s
    else some (makeRequest s (nextHeight s))
  | Op.addBlock b pid => some (AddBlock s b pid)
  | Op.pop => PopRequest s
  | Op.redo h => RedoRequest s h
  | Op.setPeerHeight pid ht => some (SetPeerHeight s pid ht)
  | Op.removePeer pid => some (RemovePeer s pid)
  | Op.pick minH => some (pickIncrAvailablePeer s minH).2
  | Op.decr pid => some (decrPeer s pid)
  | Op.setReqPeer h pid => some (setPeerForRequest s h pid)

/-- Run a list of operations from a state. -/
def exec (s : BlockPool) : List Op → Option BlockPool
  | [] => some s
  | op :: ops =>
    match applyOp s op with
    | none => none
    | some s2 => exec s2 ops

/-- A pool state reachable from a fresh pool by a sequence of operations. -/
def Reachable (s : BlockPool) : Prop :=
  ∃ start ops, exec (NewBlockPool start) ops = some s

/-- True when an entry of the requests map holds an unfilled request. -/
def unfilledB : Option bpRequest → Bool
  | some r => r.block.isNone
  | none => false

/-- Number of unfilled requests among the k heights starting at lo. -/
def countUnfilled (req : Nat → Option bpRequest) (lo : Nat) : Nat → Nat
  | 0 => 0
  | k + 1 => countUnfilled req lo k + (if unfilledB (req (lo + k)) then 1 else 0)

/-- Structural invariant tying the counters to the requests map: numTotal is
within bounds, the map entries are exactly the window of numTotal heights
starting at the base height, and numPending counts the unfilled entries. -/
def PoolInv (s : BlockPool) : Prop :=
  0 ≤ s.numTotal ∧ s.numTotal ≤ maxTotalRequests ∧
  (∀ h, (s.requests h).isSome = true ↔ (s.height ≤ h ∧ h < s.height + s.numTotal.toNat)) ∧
  s.numPending = (countUnfilled s.requests s.height s.numTotal.toNat : Int)

/-- Registry invariant: every record is at or below the per-peer cap. -/
def PeerInv (s : BlockPool) : Prop :=
  ∀ p ∈ s.peers, p.numRequests ≤ maxRequestsPerPeer

/-- What the worker observes after one request attempt: the hasBlock check
and the base height read from GetStatus. -/
structure WObs where
  hasBlockNow : Bool
  poolHeight : Nat

/-- The condition on which the try loop of requestRoutine stops early. -/
def stopObs (h : Nat) (o : WObs) : Bool := o.hasBlockNow || decide (h < o.poolHeight)

/-- Outcome of one engagement of requestRoutine with one chosen peer. -/
structure RoundResult where
  sends : Nat
  decremented : Bool
  removedPeer : Bool
  timeouts : Nat
  terminated : Bool
deriving DecidableEq

/-- The try loop of requestRoutine: one request sent per try, then a success
observation stops the loop with a decrement of the peer counter; with the
tries exhausted the worker removes the peer, emits one timeout and goes back
to peer selection (the pool is taken as running throughout). -/
def tryLoop (h : Nat) : List WObs → RoundResult
  | [] =>
    { sends := 0, decremented := false, removedPeer := true, timeouts := 1, terminated := false }
  | o :: rest =>
    if o.hasBlockNow then
      { sends := 1, decremented := true, removedPeer := false, timeouts := 0, terminated := true }
    else if h < o.poolHeight then
      { sends := 1, decremented := true, removedPeer := false, timeouts := 0, terminated := true }
    else
      { tryLoop h rest with sends := (tryLoop h rest).sends + 1 }

/-- One engagement of requestRoutine with one chosen peer for a height, the
try number i observing obs i; maxTries observations are available. -/
def requestRound (h : Nat) (obs : Nat → WObs) : RoundResult :=
  tryLoop h ((List.range maxTries).map obs)

/-- The unfilled count only depends on the entries of the counted window. -/
lemma countUnfilled_congr (req1 req2 : Nat → Option bpRequest) (lo k : Nat)
    (hagree : ∀ i, i < k → req1 (lo + i) = req2 (lo + i)) :
    countUnfilled req1 lo k = countUnfilled req2 lo k := by
  induction k with
  | zero => rfl
  | succ k ih =>
    simp only [countUnfilled]
    rw [ih (fun i hi => hagree i (Nat.lt_succ_of_lt hi)), hagree k (Nat.lt_succ_self k)]

/-- Effect on the unfilled count of overwriting one entry of the window. -/
lemma countUnfilled_update (req : Nat → Option bpRequest) (lo k j : Nat)
    (v : Option bpRequest) (hj1 : lo ≤ j) (hj2 : j < lo + k) :
    countUnfilled (fun x => if x = j then v else req x) lo k
        + (if unfilledB (req j) then 1 else 0)
      = countUnfilled req lo k + (if unfilledB v then 1 else 0) := by
  induction k with
  | zero => omega
  | succ k ih =>
    by_cases hjk : j = lo + k
    · subst hjk
      have hc : countUnfilled (fun x => if x = lo + k then v else req x) lo k
          = countUnfilled req lo k :=
        countUnfilled_congr _ _ lo k (fun i hi => if_neg (by omega))
      have he : (if lo + k = lo + k then v else req (lo + k)) = v := if_pos rfl
      have e1 : countUnfilled (fun x => if x = lo + k then v else req x) lo (k + 1)
          = countUnfilled (fun x => if x = lo + k then v else req x) lo k
            + (if unfilledB (if lo + k = lo + k then v else req (lo + k)) then 1 else 0) := rfl
      have e2 : countUnfilled req lo (k + 1)
          = countUnfilled req lo k + (if unfilledB (req (lo + k)) then 1 else 0) := rfl
      rw [e1, e2, hc, he]
      omega
    · have hih := ih (by omega)
      have e1 : countUnfilled (fun x => if x = j then v else req x) lo (k + 1)
          = countUnfilled (fun x => if x = j then v else req x) lo k
            + (if unfilledB (if lo + k = j then v else req (lo + k)) then 1 else 0) := rfl
      have e2 : countUnfilled req lo (k + 1)
          = countUnfilled req lo k + (if unfilledB (req (lo + k)) then 1 else 0) := rfl
      have he : (if lo + k = j then v else req (lo + k)) = req (lo + k) := if_neg (by omega)
      rw [e1, e2, he]
      omega

/-- Splitting the lowest height off the counted window. -/
lemma countUnfilled_shift (req : Nat → Option bpRequest) (lo k : Nat) :
    countUnfilled req lo (k + 1)
      = (if unfilledB (req lo) then 1 else 0) + countUnfilled req (lo + 1) k := by
  induction k with
  | zero => simp [countUnfilled]
  | succ k ih =>
    have e1 : countUnfilled req lo (k + 1 + 1)
        = countUnfilled req lo (k + 1) + (if unfilledB (req (lo + (k + 1))) then 1 else 0) := rfl
    have e2 : countUnfilled req (lo + 1) (k + 1)
        = countUnfilled req (lo + 1) k + (if unfilledB (req (lo + 1 + k)) then 1 else 0) := rfl
    rw [e1, e2, ih, (by omega : lo + (k + 1) = lo + 1 + k)]
    omega

/-- The unfilled count is at most the window size. -/
lemma countUnfilled_le (req : Nat → Option bpRequest) (lo k : Nat) :
    countUnfilled req lo k ≤ k := by
  induction k with
  | zero => exact Nat.le_refl 0
  | succ k ih =>
    simp only [countUnfilled]
    split <;> omega

/-- Appending a fresh unfilled request on top of the window raises the
unfilled count by one. -/
lemma countUnfilled_append (req : Nat → Option bpRequest) (lo k : Nat)
    (v : Option bpRequest) (hv : unfilledB v = true) :
    countUnfilled (fun x => if x = lo + k then v else req x) lo (k + 1)
      = countUnfilled req lo k + 1 := by
  have hc : countUnfilled (fun x => if x = lo + k then v else req x) lo k
      = countUnfilled req lo k :=
    countUnfilled_congr _ _ lo k (fun i hi => if_neg (by omega))
  have e1 : countUnfilled (fun x => if x = lo + k then v else req x) lo (k + 1)
      = countUnfilled (fun x => if x = lo + k then v else req x) lo k
        + (if unfilledB (if lo + k = lo + k then v else req (lo + k)) then 1 else 0) := rfl
  rw [e1, hc, if_pos rfl, hv, if_pos rfl]

/-- Admission at the contiguous next height preserves the pool invariant. -/
lemma poolInv_makeRequest_next (s : BlockPool) (hInv : PoolInv s)
    (hTlt : s.numTotal < maxTotalRequests) :
    PoolInv (makeRequest s (nextHeight s)) := by
  obtain ⟨hT0, hT100, hdom, hcnt⟩ := hInv
  have huu : uint64 s.numTotal = s.numTotal.toNat := by
    unfold uint64 maxTotalRequests at *
    omega
  have hn : nextHeight s = s.height + s.numTotal.toNat := by
    unfold nextHeight
    rw [huu]
  have hmk : makeRequest s (nextHeight s)
      = { s with
          requests := fun h2 =>
            if h2 = s.height + s.numTotal.toNat then
              some { height := nextHeight s, peerId := "", block := none }
            else s.requests h2,
          numTotal := s.numTotal + 1,
          numPending := s.numPending + 1 } := by
    unfold makeRequest
    rw [if_pos rfl, hn]
  rw [hmk]
  have htt : (s.numTotal + 1).toNat = s.numTotal.toNat + 1 := by omega
  refine ⟨by show (0 : Int) ≤ s.numTotal + 1; omega,
    by show s.numTotal + 1 ≤ maxTotalRequests; unfold maxTotalRequests at *; omega, ?_, ?_⟩
  · intro h2
    show (if h2 = s.height + s.numTotal.toNat then
        some { height := nextHeight s, peerId := "", block := none }
      else s.requests h2).isSome = true
      ↔ s.height ≤ h2 ∧ h2 < s.height + (s.numTotal + 1).toNat
    rw [htt]
    by_cases he : h2 = s.height + s.numTotal.toNat
    · rw [if_pos he]
      simp only [Option.isSome_some]
      constructor
      · intro _; omega
      · intro _; trivial
    · rw [if_neg he, hdom h2]
      omega
  · show s.numPending + 1
      = (countUnfilled (fun h2 =>
          if h2 = s.height + s.numTotal.toNat then
            some { height := nextHeight s, peerId := "", block := none }
          else s.requests h2) s.height (s.numTotal + 1).toNat : Int)
    rw [htt, countUnfilled_append s.requests s.height s.numTotal.toNat
      (some { height := nextHeight s, peerId := "", block := none }) rfl]
    omega

/-- AddBlock preserves the pool invariant. -/
lemma poolInv_AddBlock (s : BlockPool) (b : Block) (pid : String) (hInv : PoolInv s) :
    PoolInv (AddBlock s b pid) := by
  obtain ⟨hT0, hT100, hdom, hcnt⟩ := hInv
  unfold AddBlock
  cases hr : s.requests b.Height with
  | none => exact ⟨hT0, hT100, hdom, hcnt⟩
  | some r =>
    dsimp only
    by_cases hp : r.peerId ≠ pid
    · rw [if_pos hp]; exact ⟨hT0, hT100, hdom, hcnt⟩
    · rw [if_neg hp]
      by_cases hb : r.block.isSome
      · rw [if_pos hb]; exact ⟨hT0, hT100, hdom, hcnt⟩
      · rw [if_neg hb]
        have hmem : s.height ≤ b.Height ∧ b.Height < s.height + s.numTotal.toNat :=
          (hdom b.Height).1 (by rw [hr]; rfl)
        refine ⟨hT0, hT100, ?_, ?_⟩
        · intro h2
          show (if h2 = b.Height then some { r with block := some b }
              else s.requests h2).isSome = true
            ↔ s.height ≤ h2 ∧ h2 < s.height + s.numTotal.toNat
          by_cases he : h2 = b.Height
          · rw [if_pos he]
            simp only [Option.isSome_some]
            constructor
            · intro _; omega
            · intro _; trivial
          · rw [if_neg he]; exact hdom h2
        · show s.numPending - 1
            = (countUnfilled (fun h2 =>
                if h2 = b.Height then some { r with block := some b }
                else s.requests h2) s.height s.numTotal.toNat : Int)
          have hupd := countUnfilled_update s.requests s.height s.numTotal.toNat b.Height
            (some { r with block := some b }) hmem.1 hmem.2
          have hold : unfilledB (s.requests b.Height) = true := by
            rw [hr]
            show r.block.isNone = true
            cases hbv : r.block with
            | none => rfl
            | some x => rw [hbv] at hb; exact absurd rfl hb
          have hnew : unfilledB (some { r with block := some b }) = false := rfl
          rw [hold, hnew] at hupd
          simp at hupd
          omega

/-- PopRequest preserves the pool invariant. -/
lemma poolInv_PopRequest (s s2 : BlockPool) (hInv : PoolInv s)
    (h : PopRequest s = some s2) : PoolInv s2 := by
  obtain ⟨hT0, hT100, hdom, hcnt⟩ := hInv
  unfold PopRequest at h
  cases hr : s.requests s.height with
  | none => rw [hr] at h; exact absurd h (by simp)
  | some r =>
    rw [hr] at h
    dsimp only at h
    by_cases hb : r.block.isNone
    · rw [if_pos hb] at h; exact absurd h (by simp)
    · rw [if_neg hb] at h
      injection h with h2
      subst h2
      have hbase : s.height ≤ s.height ∧ s.height < s.height + s.numTotal.toNat :=
        (hdom s.height).1 (by rw [hr]; rfl)
      refine ⟨by show (0 : Int) ≤ s.numTotal - 1; omega,
        by show s.numTotal - 1 ≤ maxTotalRequests; unfold maxTotalRequests at *; omega, ?_, ?_⟩
      · intro h2
        show (if h2 = s.height then none else s.requests h2).isSome = true
          ↔ s.height + 1 ≤ h2 ∧ h2 < s.height + 1 + (s.numTotal - 1).toNat
        have htt : (s.numTotal - 1).toNat = s.numTotal.toNat - 1 := by omega
        rw [htt]
        by_cases he : h2 = s.height
        · rw [if_pos he]
          simp only [Option.isSome_none]
          constructor
          · intro hx; exact absurd hx (by simp)
          · intro hx; omega
        · rw [if_neg he, hdom h2]
          omega
      · show s.numPending
          = (countUnfilled (fun h2 => if h2 = s.height then none else s.requests h2)
              (s.height + 1) (s.numTotal - 1).toNat : Int)
        have htt : (s.numTotal - 1).toNat = s.numTotal.toNat - 1 := by omega
        rw [htt]
        have hc : countUnfilled (fun h2 => if h2 = s.height then none else s.requests h2)
            (s.height + 1) (s.numTotal.toNat - 1)
            = countUnfilled s.requests (s.height + 1) (s.numTotal.toNat - 1) :=
          countUnfilled_congr _ _ _ _ (fun i hi => if_neg (by omega))
        have hshift := countUnfilled_shift s.requests s.height (s.numTotal.toNat - 1)
        have htt2 : s.numTotal.toNat - 1 + 1 = s.numTotal.toNat := by omega
        rw [htt2] at hshift
        have hfilled : unfilledB (s.requests s.height) = false := by
          rw [hr]
          show r.block.isNone = false
          cases hbv : r.block with
          | none => rw [hbv] at hb; exact absurd rfl hb
          | some x => rfl
        rw [hfilled] at hshift
        simp at hshift
        rw [hc, ← hshift]
        exact hcnt

/-- RedoRequest preserves the pool invariant when it does not panic. -/
lemma poolInv_RedoRequest (s : BlockPool) (h : Nat) (s2 : BlockPool) (hInv : PoolInv s)
    (hr2 : RedoRequest s h = some s2) : PoolInv s2 := by
  obtain ⟨hT0, hT100, hdom, hcnt⟩ := hInv
  unfold RedoRequest at hr2
  cases hr : s.requests h with
  | none => rw [hr] at hr2; exact absurd hr2 (by simp)
  | some r =>
    rw [hr] at hr2
    dsimp only at hr2
    by_cases hb : r.block.isNone
    · rw [if_pos hb] at hr2; exact absurd hr2 (by simp)
    · rw [if_neg hb] at hr2
      injection hr2 with h2
      subst h2
      have hmem := (hdom h).1 (by rw [hr]; rfl)
      refine ⟨hT0, hT100, ?_, ?_⟩
      · intro h3
        show (if h3 = h then some { r with peerId := "", block := none }
            else s.requests h3).isSome = true
          ↔ s.height ≤ h3 ∧ h3 < s.height + s.numTotal.toNat
        by_cases he : h3 = h
        · rw [if_pos he]
          simp only [Option.isSome_some]
          constructor
          · intro _; omega
          · intro _; trivial
        · rw [if_neg he]; exact hdom h3
      · show s.numPending + 1
          = (countUnfilled (fun h3 =>
              if h3 = h then some { r with peerId := "", block := none }
              else s.requests h3) s.height s.numTotal.toNat : Int)
        have hupd := countUnfilled_update s.requests s.height s.numTotal.toNat h
          (some { r with peerId := "", block := none }) hmem.1 hmem.2
        have hold : unfilledB (s.requests h) = false := by
          rw [hr]
          show r.block.isNone = false
          cases hbv : r.block with
          | none => rw [hbv] at hb; exact absurd rfl hb
          | some x => rfl
        have hnew : unfilledB (some { r with peerId := "", block := none }) = true := rfl
        rw [hold, hnew] at hupd
        simp at hupd
        omega

/-- setPeerForRequest preserves the pool invariant. -/
lemma poolInv_setPeerForRequest (s : BlockPool) (h : Nat) (pid : String) (hInv : PoolInv s) :
    PoolInv (setPeerForRequest s h pid) := by
  obtain ⟨hT0, hT100, hdom, hcnt⟩ := hInv
  unfold setPeerForRequest
  cases hr : s.requests h with
  | none => exact ⟨hT0, hT100, hdom, hcnt⟩
  | some r =>
    have hmem := (hdom h).1 (by rw [hr]; rfl)
    refine ⟨hT0, hT100, ?_, ?_⟩
    · intro h3
      show (if h3 = h then some { r with peerId := pid } else s.requests h3).isSome = true
        ↔ s.height ≤ h3 ∧ h3 < s.height + s.numTotal.toNat
      by_cases he : h3 = h
      · rw [if_pos he]
        simp only [Option.isSome_some]
        constructor
        · intro _; omega
        · intro _; trivial
      · rw [if_neg he]; exact hdom h3
    · show s.numPending
        = (countUnfilled (fun h3 =>
            if h3 = h then some { r with peerId := pid }
            else s.requests h3) s.height s.numTotal.toNat : Int)
      have hupd := countUnfilled_update s.requests s.height s.numTotal.toNat h
        (some { r with peerId := pid }) hmem.1 hmem.2
      have hsame : unfilledB (some { r with peerId := pid }) = unfilledB (s.requests h) := by
        rw [hr]; rfl
      rw [hsame] at hupd
      omega

/-- Every operation preserves the pool invariant. -/
lemma poolInv_applyOp (s : BlockPool) (op : Op) (s2 : BlockPool) (hInv : PoolInv s)
    (h : applyOp s op = some s2) : PoolInv s2 := by
  cases op with
  | runOnce =>
    unfold applyOp at h
    by_cases hg1 : maxPendingRequests ≤ s.numPending
    · rw [if_pos hg1] at h; injection h with h2; subst h2; exact hInv
    · rw [if_neg hg1] at h
      by_cases hg2 : maxTotalRequests ≤ s.numTotal
      · rw [if_pos hg2] at h; injection h with h2; subst h2; exact hInv
      · rw [if_neg hg2] at h; injection h with h2; subst h2
        exact poolInv_makeRequest_next s ⟨hInv.1, hInv.2.1, hInv.2.2.1, hInv.2.2.2⟩ (by omega)
  | addBlock b pid =>
    unfold applyOp at h; injection h with h2; subst h2
    exact poolInv_AddBlock s b pid hInv
  | pop =>
    unfold applyOp at h
    exact poolInv_PopRequest s s2 hInv h
  | redo hh =>
    unfold applyOp at h
    exact poolInv_RedoRequest s hh s2 hInv h
  | setPeerHeight pid ht =>
    unfold applyOp at h; injection h with h2; subst h2
    exact hInv
  | removePeer pid =>
    unfold applyOp at h; injection h with h2; subst h2
    exact hInv
  | pick minH =>
    unfold applyOp at h; injection h with h2; subst h2
    exact hInv
  | decr pid =>
    unfold applyOp at h; injection h with h2; subst h2
    exact hInv
  | setReqPeer hh pid =>
    unfold applyOp at h; injection h with h2; subst h2
    exact poolInv_setPeerForRequest s hh pid hInv

/-- The pool invariant is carried along any run of operations. -/
lemma poolInv_exec (ops : List Op) (s s2 : BlockPool) (hInv : PoolInv s)
    (h : exec s ops = some s2) : PoolInv s2 := by
  induction ops generalizing s with
  | nil =>
    unfold exec at h
    injection h with h3
    subst h3
    exact hInv
  | cons op ops ih =>
    unfold exec at h
    cases happ : applyOp s op with
    | none => rw [happ] at h; exact absurd h (by simp)
    | some s3 =>
      rw [happ] at h
      exact ih s3 (poolInv_applyOp s op s3 hInv happ) h

/-- The fresh pool satisfies the pool invariant. -/
lemma poolInv_init (start : Nat) : PoolInv (NewBlockPool start) := by
  refine ⟨le_refl 0, by show (0 : Int) ≤ maxTotalRequests; decide, ?_, rfl⟩
  intro h
  show (none : Option bpRequest).isSome = true ↔ start ≤ h ∧ h < start + (0 : Int).toNat
  simp only [Option.isSome_none]
  constructor
  · intro hx; exact absurd hx (by simp)
  · intro hx; omega

/-- Every reachable state satisfies the pool invariant. -/
lemma reachable_poolInv (s : BlockPool) (h : Reachable s) : PoolInv s := by
  obtain ⟨start, ops, he⟩ := h
  exact poolInv_exec ops (NewBlockPool start) s (poolInv_init start) he

/-- The upsert of SetPeerHeight keeps every record at or below the cap. -/
lemma peerBound_setPeerHeightL (pid : String) (ht : Nat) (ps : List bpPeer)
    (hb : ∀ q ∈ ps, q.numRequests ≤ maxRequestsPerPeer) :
    ∀ p ∈ setPeerHeightL pid ht ps, p.numRequests ≤ maxRequestsPerPeer := by
  induction ps with
  | nil =>
    intro p hp
    simp only [setPeerHeightL, List.mem_singleton] at hp
    subst hp
    show (0 : Int) ≤ maxRequestsPerPeer
    decide
  | cons q ps ih =>
    intro p hp
    unfold setPeerHeightL at hp
    by_cases hq : q.id = pid
    · rw [if_pos hq] at hp
      rcases List.mem_cons.1 hp with hph | hpt
      · subst hph
        exact hb q (List.mem_cons_self q ps)
      · exact hb p (List.mem_cons_of_mem q hpt)
    · rw [if_neg hq] at hp
      rcases List.mem_cons.1 hp with hph | hpt
      · subst hph
        exact hb p (List.mem_cons_self p ps)
      · exact ih (fun x hx => hb x (List.mem_cons_of_mem q hx)) p hpt

/-- Deleting a record keeps every remaining record at or below the cap. -/
lemma peerBound_removePeerL (pid : String) (ps : List bpPeer)
    (hb : ∀ q ∈ ps, q.numRequests ≤ maxRequestsPerPeer) :
    ∀ p ∈ removePeerL pid ps, p.numRequests ≤ maxRequestsPerPeer := by
  intro p hp
  exact hb p (List.mem_of_mem_filter hp)

/-- decrPeer keeps every record at or below the cap. -/
lemma peerBound_decrPeerL (pid : String) (ps : List bpPeer)
    (hb : ∀ q ∈ ps, q.numRequests ≤ maxRequestsPerPeer) :
    ∀ p ∈ decrPeerL pid ps, p.numRequests ≤ maxRequestsPerPeer := by
  induction ps with
  | nil => intro p hp; exact absurd hp (by simp [decrPeerL])
  | cons q ps ih =>
    intro p hp
    unfold decrPeerL at hp
    by_cases hq : q.id = pid
    · rw [if_pos hq] at hp
      rcases List.mem_cons.1 hp with hph | hpt
      · subst hph
        have := hb q (List.mem_cons_self q ps)
        show q.numRequests - 1 ≤ maxRequestsPerPeer
        omega
      · exact hb p (List.mem_cons_of_mem q hpt)
    · rw [if_neg hq] at hp
      rcases List.mem_cons.1 hp with hph | hpt
      · subst hph
        exact hb p (List.mem_cons_self p ps)
      · exact ih (fun x hx => hb x (List.mem_cons_of_mem q hx)) p hpt

/-- The increment done by pickIncrAvailablePeer keeps every record at or
below the cap: only a record strictly below the cap is incremented. -/
lemma peerBound_pickIncrL (minH : Nat) (ps : List bpPeer)
    (hb : ∀ q ∈ ps, q.numRequests ≤ maxRequestsPerPeer) :
    ∀ p ∈ (pickIncrL minH ps).2, p.numRequests ≤ maxRequestsPerPeer := by
  induction ps with
  | nil => intro p hp; exact absurd hp (by simp [pickIncrL])
  | cons q ps ih =>
    intro p hp
    unfold pickIncrL at hp
    by_cases h1 : maxRequestsPerPeer ≤ q.numRequests
    · rw [if_pos h1] at hp
      rcases List.mem_cons.1 hp with hph | hpt
      · subst hph
        exact hb p (List.mem_cons_self p ps)
      · exact ih (fun x hx => hb x (List.mem_cons_of_mem q hx)) p hpt
    · rw [if_neg h1] at hp
      by_cases h2 : q.height < minH
      · rw [if_pos h2] at hp
        rcases List.mem_cons.1 hp with hph | hpt
        · subst hph
          exact hb p (List.mem_cons_self p ps)
        · exact ih (fun x hx => hb x (List.mem_cons_of_mem q hx)) p hpt
      · rw [if_neg h2] at hp
        rcases List.mem_cons.1 hp with hph | hpt
        · subst hph
          show q.numRequests + 1 ≤ maxRequestsPerPeer
          omega
        · exact hb p (List.mem_cons_of_mem q hpt)

/-- Every operation preserves the registry invariant. -/
lemma peerInv_applyOp (s : BlockPool) (op : Op) (s2 : BlockPool) (hInv : PeerInv s)
    (h : applyOp s op = some s2) : PeerInv s2 := by
  cases op with
  | runOnce =>
    unfold applyOp at h
    by_cases hg1 : maxPendingRequests ≤ s.numPending
    · rw [if_pos hg1] at h; injection h with h2; subst h2; exact hInv
    · rw [if_neg hg1] at h
      by_cases hg2 : maxTotalRequests ≤ s.numTotal
      · rw [if_pos hg2] at h; injection h with h2; subst h2; exact hInv
      · rw [if_neg hg2] at h; injection h with h2; subst h2
        unfold makeRequest
        by_cases hc : nextHeight s = nextHeight s
        · rw [if_pos hc]; exact hInv
        · rw [if_neg hc]; exact hInv
  | addBlock b pid =>
    unfold applyOp at h; injection h with h2; subst h2
    unfold AddBlock
    cases hr : s.requests b.Height with
    | none => exact hInv
    | some r =>
      dsimp only
      by_cases hp : r.peerId ≠ pid
      · rw [if_pos hp]; exact hInv
      · rw [if_neg hp]
        by_cases hbv : r.block.isSome
        · rw [if_pos hbv]; exact hInv
        · rw [if_neg hbv]; exact hInv
  | pop =>
    unfold applyOp PopRequest at h
    cases hr : s.requests s.height with
    | none => rw [hr] at h; exact absurd h (by simp)
    | some r =>
      rw [hr] at h
      dsimp only at h
      by_cases hbv : r.block.isNone
      · rw [if_pos hbv] at h; exact absurd h (by simp)
      · rw [if_neg hbv] at h; injection h with h2; subst h2; exact hInv
  | redo hh =>
    unfold applyOp at h
    dsimp only at h
    unfold RedoRequest at h
    cases hr : s.requests hh with
    | none => rw [hr] at h; exact absurd h (by simp)
    | some r =>
      rw [hr] at h
      dsimp only at h
      by_cases hbv : r.block.isNone
      · rw [if_pos hbv] at h; exact absurd h (by simp)
      · rw [if_neg hbv] at h; injection h with h2; subst h2
        exact peerBound_removePeerL r.peerId s.peers hInv
  | setPeerHeight pid ht =>
    unfold applyOp at h; injection h with h2; subst h2
    exact peerBound_setPeerHeightL pid ht s.peers hInv
  | removePeer pid =>
    unfold applyOp at h; injection h with h2; subst h2
    exact peerBound_removePeerL pid s.peers hInv
  | pick minH =>
    unfold applyOp at h; injection h with h2; subst h2
    exact peerBound_pickIncrL minH s.peers hInv
  | decr pid =>
    unfold applyOp at h; injection h with h2; subst h2
    exact peerBound_decrPeerL pid s.peers hInv
  | setReqPeer hh pid =>
    unfold applyOp at h; injection h with h2; subst h2
    unfold setPeerForRequest
    cases hr : s.requests hh with
    | none => exact hInv
    | some r => exact hInv

/-- The registry invariant is carried along any run of operations. -/
lemma peerInv_exec (ops : List Op) (s s2 : BlockPool) (hInv : PeerInv s)
    (h : exec s ops = some s2) : PeerInv s2 := by
  induction ops generalizing s with
  | nil =>
    unfold exec at h
    injection h with h3
    subst h3
    exact hInv
  | cons op ops ih =>
    unfold exec at h
    cases happ : applyOp s op with
    | none => rw [happ] at h; exact absurd h (by simp)
    | some s3 =>
      rw [happ] at h
      exact ih s3 (peerInv_applyOp s op s3 hInv happ) h

/-- Every reachable state satisfies the registry invariant. -/
lemma reachable_peerInv (s : BlockPool) (h : Reachable s) : PeerInv s := by
  obtain ⟨start, ops, he⟩ := h
  refine peerInv_exec ops (NewBlockPool start) s ?_ he
  intro p hp
  exact absurd hp (by simp [NewBlockPool])

/-- The scan returns none exactly when every peer is at the cap or too short. -/
lemma pickIncrL_none_iff (minH : Nat) (ps : List bpPeer) :
    (pickIncrL minH ps).1 = none ↔
      ∀ q ∈ ps, maxRequestsPerPeer ≤ q.numRequests ∨ q.height < minH := by
  induction ps with
  | nil => simp [pickIncrL]
  | cons p ps ih =>
    by_cases h1 : maxRequestsPerPeer ≤ p.numRequests
    · rw [show (pickIncrL minH (p :: ps)).1 = (pickIncrL minH ps).1 by
        simp only [pickIncrL]; rw [if_pos h1]]
      rw [ih]
      constructor
      · intro hall
        intro q hq
        rcases List.mem_cons.1 hq with hqh | hqt
        · subst hqh; exact Or.inl h1
        · exact hall q hqt
      · intro hall q hq
        exact hall q (List.mem_cons_of_mem p hq)
    · by_cases h2 : p.height < minH
      · rw [show (pickIncrL minH (p :: ps)).1 = (pickIncrL minH ps).1 by
          simp only [pickIncrL]; rw [if_neg h1, if_pos h2]]
        rw [ih]
        constructor
        · intro hall
          intro q hq
          rcases List.mem_cons.1 hq with hqh | hqt
          · subst hqh; exact Or.inr h2
          · exact hall q hqt
        · intro hall q hq
          exact hall q (List.mem_cons_of_mem p hq)
      · rw [show (pickIncrL minH (p :: ps)).1
            = some { p with numRequests := p.numRequests + 1 } by
          simp only [pickIncrL]; rw [if_neg h1, if_neg h2]]
        constructor
        · intro hc; exact absurd hc (by simp)
        · intro hall
          rcases hall p (List.mem_cons_self p ps) with hc | hc
          · exact absurd hc h1
          · exact absurd hc h2

/-- A peer returned by the scan was below the cap and tall enough, and is
stored back incremented. -/
lemma pickIncrL_some (minH : Nat) (ps : List bpPeer) (p : bpPeer)
    (hp : (pickIncrL minH ps).1 = some p) :
    ∃ q ∈ ps, q.numRequests < maxRequestsPerPeer ∧ minH ≤ q.height ∧
      p = { q with numRequests := q.numRequests + 1 } ∧ p ∈ (pickIncrL minH ps).2 := by
  induction ps with
  | nil => exact absurd hp (by simp [pickIncrL])
  | cons p0 ps ih =>
    by_cases h1 : maxRequestsPerPeer ≤ p0.numRequests
    · rw [show (pickIncrL minH (p0 :: ps)).1 = (pickIncrL minH ps).1 by
        simp only [pickIncrL]; rw [if_pos h1]] at hp
      obtain ⟨q, hq, hc1, hc2, hpe, hmem⟩ := ih hp
      refine ⟨q, List.mem_cons_of_mem p0 hq, hc1, hc2, hpe, ?_⟩
      rw [show (pickIncrL minH (p0 :: ps)).2 = p0 :: (pickIncrL minH ps).2 by
        simp only [pickIncrL]; rw [if_pos h1]]
      exact List.mem_cons_of_mem p0 hmem
    · by_cases h2 : p0.height < minH
      · rw [show (pickIncrL minH (p0 :: ps)).1 = (pickIncrL minH ps).1 by
          simp only [pickIncrL]; rw [if_neg h1, if_pos h2]] at hp
        obtain ⟨q, hq, hc1, hc2, hpe, hmem⟩ := ih hp
        refine ⟨q, List.mem_cons_of_mem p0 hq, hc1, hc2, hpe, ?_⟩
        rw [show (pickIncrL minH (p0 :: ps)).2 = p0 :: (pickIncrL minH ps).2 by
          simp only [pickIncrL]; rw [if_neg h1, if_pos h2]]
        exact List.mem_cons_of_mem p0 hmem
      · rw [show (pickIncrL minH (p0 :: ps)).1
            = some { p0 with numRequests := p0.numRequests + 1 } by
          simp only [pickIncrL]; rw [if_neg h1, if_neg h2]] at hp
        injection hp with hp
        refine ⟨p0, List.mem_cons_self p0 ps, by omega, by omega, hp.symm, ?_⟩
        rw [show (pickIncrL minH (p0 :: ps)).2
            = { p0 with numRequests := p0.numRequests + 1 } :: ps by
          simp only [pickIncrL]; rw [if_neg h1, if_neg h2]]
        rw [← hp]
        exact List.mem_cons_self _ _

/-- No record with the removed id survives removePeerL. -/
lemma removePeerL_id (pid : String) (ps : List bpPeer) :
    ∀ p ∈ removePeerL pid ps, p.id ≠ pid := by
  intro p hp
  have hm := List.mem_filter.1 hp
  simpa using hm.2

/-- The try loop sends at most one request per available observation. -/
lemma tryLoop_sends_le (h : Nat) (l : List WObs) : (tryLoop h l).sends ≤ l.length := by
  induction l with
  | nil => exact Nat.le_refl 0
  | cons o rest ih =>
    by_cases hB : o.hasBlockNow
    · rw [show tryLoop h (o :: rest)
          = { sends := 1, decremented := true, removedPeer := false,
              timeouts := 0, terminated := true } by
        simp only [tryLoop]; rw [if_pos hB]]
      simp
    · by_cases hH : h < o.poolHeight
      · rw [show tryLoop h (o :: rest)
            = { sends := 1, decremented := true, removedPeer := false,
                timeouts := 0, terminated := true } by
          simp only [tryLoop]; rw [if_neg hB, if_pos hH]]
        simp
      · rw [show tryLoop h (o :: rest)
            = { tryLoop h rest with sends := (tryLoop h rest).sends + 1 } by
          simp only [tryLoop]; rw [if_neg hB, if_neg hH]]
        show (tryLoop h rest).sends + 1 ≤ rest.length + 1
        omega

/-- With a success observation available, the try loop decrements the peer,
emits no timeout, keeps the peer and terminates. -/
lemma tryLoop_stop (h : Nat) (l : List WObs) (hex : ∃ o ∈ l, stopObs h o = true) :
    (tryLoop h l).decremented = true ∧ (tryLoop h l).removedPeer = false ∧
    (tryLoop h l).timeouts = 0 ∧ (tryLoop h l).terminated = true := by
  induction l with
  | nil =>
    obtain ⟨o, ho, _⟩ := hex
    exact absurd ho (by simp)
  | cons o rest ih =>
    by_cases hB : o.hasBlockNow
    · rw [show tryLoop h (o :: rest)
          = { sends := 1, decremented := true, removedPeer := false,
              timeouts := 0, terminated := true } by
        simp only [tryLoop]; rw [if_pos hB]]
      exact ⟨rfl, rfl, rfl, rfl⟩
    · by_cases hH : h < o.poolHeight
      · rw [show tryLoop h (o :: rest)
            = { sends := 1, decremented := true, removedPeer := false,
                timeouts := 0, terminated := true } by
          simp only [tryLoop]; rw [if_neg hB, if_pos hH]]
        exact ⟨rfl, rfl, rfl, rfl⟩
      · have hstop : stopObs h o = false := by
          unfold stopObs
          simp [hB, hH]
        obtain ⟨o2, ho2, hs2⟩ := hex
        rcases List.mem_cons.1 ho2 with he | ht
        · subst he
          rw [hstop] at hs2
          exact absurd hs2 (by simp)
        · have hres := ih ⟨o2, ht, hs2⟩
          rw [show tryLoop h (o :: rest)
              = { tryLoop h rest with sends := (tryLoop h rest).sends + 1 } by
            simp only [tryLoop]; rw [if_neg hB, if_neg hH]]
          exact ⟨hres.1, hres.2.1, hres.2.2.1, hres.2.2.2⟩

/-- With no success observation, the try loop sends once per try, then
removes the peer, emits exactly one timeout, does not decrement, and goes
back to peer selection. -/
lemma tryLoop_exhaust (h : Nat) (l : List WObs) (hall : ∀ o ∈ l, stopObs h o = false) :
    (tryLoop h l).sends = l.length ∧ (tryLoop h l).removedPeer = true ∧
    (tryLoop h l).timeouts = 1 ∧ (tryLoop h l).decremented = false ∧
    (tryLoop h l).terminated = false := by
  induction l with
  | nil => exact ⟨rfl, rfl, rfl, rfl, rfl⟩
  | cons o rest ih =>
    have hstop := hall o (List.mem_cons_self o rest)
    have hB : ¬ (o.hasBlockNow = true) := by
      intro hc
      rw [show stopObs h o = true by unfold stopObs; simp [hc]] at hstop
      exact absurd hstop (by simp)
    have hH : ¬ (h < o.poolHeight) := by
      intro hc
      rw [show stopObs h o = true by unfold stopObs; simp [hc]] at hstop
      exact absurd hstop (by simp)
    have hres := ih (fun x hx => hall x (List.mem_cons_of_mem o hx))
    rw [show tryLoop h (o :: rest)
        = { tryLoop h rest with sends := (tryLoop h rest).sends + 1 } by
      simp only [tryLoop]; rw [if_neg hB, if_neg hH]]
    refine ⟨?_, hres.2.1, hres.2.2.1, hres.2.2.2.1, hres.2.2.2.2⟩
    show (tryLoop h rest).sends + 1 = rest.length + 1
    omega

/-- A sample peer identifier used by concrete witness states. -/
def peerA : String := "A"

/-- A pool whose single request, at the base height, is filled by peerA. -/
def demoFilled : BlockPool :=
  { requests := fun h =>
      if h = 0 then some { height := 0, peerId := peerA, block := some { Height := 0 } }
      else none,
    height := 0, numPending := 0, numTotal := 1,
    peers := [{ id := peerA, height := 5, numRequests := 1 }] }

/-- A pool whose single request, at the base height, is assigned to peerA and
not yet filled. -/
def demoUnfilled : BlockPool :=
  { requests := fun h =>
      if h = 0 then some { height := 0, peerId := peerA, block := none }
      else none,
    height := 0, numPending := 1, numTotal := 1,
    peers := [{ id := peerA, height := 5, numRequests := 1 }] }

/-- A pool whose single peer sits exactly at the per-peer cap. -/
def demoCapPool : BlockPool :=
  { requests := fun _ => none, height := 0, numPending := 0, numTotal := 0,
    peers := [{ id := peerA, height := 100, numRequests := 20 }] }

/-- The pool reached from a fresh pool by one SetPeerHeight call. -/
def demoReached : BlockPool :=
  { requests := fun _ => none, height := 0, numPending := 0, numTotal := 0,
    peers := [{ id := peerA, height := 5, numRequests := 0 }] }

/-- Worker observations that report the block present at once. -/
def demoObs : Nat → WObs := fun _ => { hasBlockNow := true, poolHeight := 0 }

/-- Operations that drive numPending to 51: fill 51 admitted heights one at a
time, then invalidate all 51 filled blocks with redo. -/
def c4BadOps : List Op :=
  ((List.range 51).map (fun i => [Op.runOnce, Op.addBlock { Height := i } ""])).flatten
    ++ (List.range 51).map (fun i => Op.redo i)

/-- Operations that fill the request at the second window slot only. -/
def c7Ops : List Op := [Op.runOnce, Op.runOnce, Op.addBlock { Height := 1 } ""]

/-- Operations that decrement a freshly registered peer. -/
def c8Ops : List Op := [Op.setPeerHeight peerA 5, Op.decr peerA]

/-- AddBlock is a no-op whenever no matching unfilled request exists. -/
lemma AddBlock_noop (s : BlockPool) (b : Block) (pid : String)
    (h : ∀ r, s.requests b.Height = some r → r.peerId = pid → r.block = none → False) :
    AddBlock s b pid = s := by
  unfold AddBlock
  cases hr : s.requests b.Height with
  | none => rfl
  | some r =>
    dsimp only
    by_cases hp : r.peerId ≠ pid
    · rw [if_pos hp]
    · rw [if_neg hp]
      push_neg at hp
      by_cases hb : r.block.isSome
      · rw [if_pos hb]
      · rw [if_neg hb]
        exfalso
        apply h r hr hp
        cases hb2 : r.block with
        | none => rfl
        | some x => rw [hb2] at hb; exact absurd rfl hb

/-- C1: AddBlock accepts a block exactly when a request at its height exists,
is assigned to the delivering peer and is not yet filled; on acceptance the
block is stored in that request and numPending drops by exactly one with every
other part of the state unchanged; otherwise the call leaves the pool exactly
as it was, so a repeated AddBlock for the same height and peer fills exactly
once and every subsequent call changes nothing. -/
theorem addBlock_fills_once (s : BlockPool) (b : Block) (pid : String) :
    (∀ r, s.requests b.Height = some r → r.peerId = pid → r.block = none →
      ((AddBlock s b pid).requests b.Height = some { r with block := some b } ∧
       (AddBlock s b pid).numPending = s.numPending - 1 ∧
       (∀ h2, h2 ≠ b.Height → (AddBlock s b pid).requests h2 = s.requests h2) ∧
       (AddBlock s b pid).height = s.height ∧
       (AddBlock s b pid).numTotal = s.numTotal ∧
       (AddBlock s b pid).peers = s.peers)) ∧
    ((¬ ∃ r, s.requests b.Height = some r ∧ r.peerId = pid ∧ r.block = none) →
      AddBlock s b pid = s) ∧
    AddBlock (AddBlock s b pid) b pid = AddBlock s b pid := by
  by_cases hacc : ∃ r, s.requests b.Height = some r ∧ r.peerId = pid ∧ r.block = none
  · obtain ⟨r, hr, hp, hbv⟩ := hacc
    have hbs : r.block.isSome = false := by rw [hbv]; rfl
    have heq : AddBlock s b pid
        = { s with
            requests := fun h2 =>
              if h2 = b.Height then some { r with block := some b } else s.requests h2,
            numPending := s.numPending - 1 } := by
      unfold AddBlock
      rw [hr]
      dsimp only
      rw [if_neg (fun hc => hc hp), if_neg (by simp [hbs])]
    have hreq : (AddBlock s b pid).requests b.Height = some { r with block := some b } := by
      rw [heq]
      show (if b.Height = b.Height then some { r with block := some b } else s.requests b.Height)
          = some { r with block := some b }
      rw [if_pos rfl]
    refine ⟨?_, ?_, ?_⟩
    · intro r2 hr2 hp2 hb2
      rw [hr] at hr2
      injection hr2 with h2
      subst h2
      refine ⟨hreq, by rw [heq], ?_, by rw [heq], by rw [heq], by rw [heq]⟩
      intro h2 hne
      rw [heq]
      show (if h2 = b.Height then some { r with block := some b } else s.requests h2)
          = s.requests h2
      rw [if_neg hne]
    · intro hno
      exact absurd ⟨r, hr, hp, hbv⟩ hno
    · refine AddBlock_noop (AddBlock s b pid) b pid ?_
      intro r2 hr2 hp2 hb2
      rw [hreq] at hr2
      injection hr2 with h2
      subst h2
      exact absurd hb2 (by simp)
  · have heq := AddBlock_noop s b pid (fun r hr hp hb => hacc ⟨r, hr, hp, hb⟩)
    refine ⟨?_, fun _ => heq, ?_⟩
    · intro r hr hp hb
      exact absurd ⟨r, hr, hp, hb⟩ hacc
    · rw [heq]
      exact heq

/-- C1 witness: on a pool with an unfilled request at height 0 assigned to
peerA, AddBlock from peerA drops numPending by exactly one. -/
theorem addBlock_fills_once_witness :
    (AddBlock demoUnfilled { Height := 0 } peerA).numPending = demoUnfilled.numPending - 1 :=
  (((addBlock_fills_once demoUnfilled { Height := 0 } peerA).1
      { height := 0, peerId := peerA, block := none } (by decide) (by decide) (by decide)).2.1)

/-- C2: under the precondition that the height lies in the window and the
request there is filled, RedoRequest clears the block and the assignment of
that request, increments numPending by one, and removes the supplying peer
from the registry, leaving the base height and numTotal unchanged; RedoRequest
on a height whose request was never filled panics (returns none) rather than
being a no-op. -/
theorem redoRequest_spec (s : BlockPool) (h : Nat) :
    (∀ r, s.height ≤ h → h < s.height + s.numTotal.toNat →
      s.requests h = some r → r.block ≠ none →
      ((RedoRequest s h).map (fun s2 => s2.requests h)
          = some (some { r with peerId := "", block := none }) ∧
       (∀ h2, h2 ≠ h → (RedoRequest s h).map (fun s2 => s2.requests h2) = some (s.requests h2)) ∧
       (RedoRequest s h).map BlockPool.numPending = some (s.numPending + 1) ∧
       (RedoRequest s h).map BlockPool.peers = some (removePeerL r.peerId s.peers) ∧
       (∀ s2, RedoRequest s h = some s2 → ∀ p ∈ s2.peers, p.id ≠ r.peerId) ∧
       (RedoRequest s h).map BlockPool.height = some s.height ∧
       (RedoRequest s h).map BlockPool.numTotal = some s.numTotal)) ∧
    ((hasBlock s h).1 = false → RedoRequest s h = none) := by
  constructor
  · intro r hlo hhi hr hbv
    have hbs : r.block.isNone = false := by
      cases hb2 : r.block with
      | none => exact absurd hb2 hbv
      | some x => rfl
    have heq : RedoRequest s h
        = some { s with
            requests := fun h2 =>
              if h2 = h then some { r with peerId := "", block := none } else s.requests h2,
            numPending := s.numPending + 1,
            peers := removePeerL r.peerId s.peers } := by
      unfold RedoRequest
      rw [hr]
      dsimp only
      rw [if_neg (by simp [hbs])]
    rw [heq]
    refine ⟨?_, ?_, rfl, rfl, ?_, rfl, rfl⟩
    · show some (if h = h then some { r with peerId := "", block := none } else s.requests h)
        = some (some { r with peerId := "", block := none })
      rw [if_pos rfl]
    · intro h2 hne
      show some (if h2 = h then some { r with peerId := "", block := none } else s.requests h2)
        = some (s.requests h2)
      rw [if_neg hne]
    · intro s2 hs2 p hp
      injection hs2 with hs2
      subst hs2
      exact removePeerL_id r.peerId s.peers p hp
  · intro hnb
    unfold RedoRequest
    cases hr : s.requests h with
    | none => rfl
    | some r =>
      dsimp only
      have hbfalse : r.block.isSome = false := by
        unfold hasBlock at hnb
        dsimp only at hnb
        rw [hr] at hnb
        dsimp only at hnb
        exact hnb
      have hbn : r.block.isNone = true := by
        cases hb2 : r.block with
        | none => rfl
        | some x => rw [hb2] at hbfalse; exact absurd hbfalse (by simp)
      rw [if_pos hbn]

/-- C2 witness: on a pool whose request at height 0 is filled by peerA,
RedoRequest at 0 increments numPending by one. -/
theorem redoRequest_spec_witness :
    (RedoRequest demoFilled 0).map BlockPool.numPending = some (demoFilled.numPending + 1) :=
  (((redoRequest_spec demoFilled 0).1
      { height := 0, peerId := peerA, block := some { Height := 0 } }
      (by decide) (by decide) (by decide) (by decide)).2.2.1)

/-- C5: when the request at the base height exists and is filled, PopRequest
removes exactly that request, advances the base height by one and decrements
numTotal by one, with numPending and the peer registry unchanged; when the
request at the base is absent or unfilled, PopRequest panics (returns none). -/
theorem popRequest_spec (s : BlockPool) :
    (∀ r, s.requests s.height = some r → r.block ≠ none →
      ((PopRequest s).map BlockPool.height = some (s.height + 1) ∧
       (PopRequest s).map BlockPool.numTotal = some (s.numTotal - 1) ∧
       (PopRequest s).map BlockPool.numPending = some s.numPending ∧
       (PopRequest s).map BlockPool.peers = some s.peers ∧
       (PopRequest s).map (fun s2 => s2.requests s.height) = some none ∧
       (∀ h2, h2 ≠ s.height → (PopRequest s).map (fun s2 => s2.requests h2) = some (s.requests h2)))) ∧
    ((hasBlock s s.height).1 = false → PopRequest s = none) := by
  constructor
  · intro r hr hbv
    have hbs : r.block.isNone = false := by
      cases hb2 : r.block with
      | none => exact absurd hb2 hbv
      | some x => rfl
    have heq : PopRequest s
        = some { s with
            requests := fun h2 => if h2 = s.height then none else s.requests h2,
            height := s.height + 1,
            numTotal := s.numTotal - 1 } := by
      unfold PopRequest
      rw [hr]
      dsimp only
      rw [if_neg (by simp [hbs])]
    rw [heq]
    refine ⟨rfl, rfl, rfl, rfl, ?_, ?_⟩
    · show some (if s.height = s.height then none else s.requests s.height)
        = some (none : Option bpRequest)
      rw [if_pos rfl]
    · intro h2 hne
      show some (if h2 = s.height then none else s.requests h2) = some (s.requests h2)
      rw [if_neg hne]
  · intro hnb
    unfold PopRequest
    cases hr : s.requests s.height with
    | none => rfl
    | some r =>
      dsimp only
      have hbfalse : r.block.isSome = false := by
        unfold hasBlock at hnb
        dsimp only at hnb
        rw [hr] at hnb
        dsimp only at hnb
        exact hnb
      have hbn : r.block.isNone = true := by
        cases hb2 : r.block with
        | none => rfl
        | some x => rw [hb2] at hbfalse; exact absurd hbfalse (by simp)
      rw [if_pos hbn]

/-- C5 witness: on a pool whose base request is filled, PopRequest advances
the base height by one. -/
theorem popRequest_spec_witness :
    (PopRequest demoFilled).map BlockPool.height = some (demoFilled.height + 1) :=
  (((popRequest_spec demoFilled).1
      { height := 0, peerId := peerA, block := some { Height := 0 } }
      (by decide) (by decide)).1)

/-- C3 counterexample: makeRequest at a non-contiguous height does not panic.
Called on a fresh pool (base 0, total 0) with height 5, it returns normally:
the empty request is silently inserted at height 5 while numTotal and
numPending stay at 0 and the base height is unchanged, contradicting the
claim that a non-contiguous makeRequest is surfaced as a panic or assertion. -/
theorem makeRequest_noncontiguous_counterexample :
    (makeRequest (NewBlockPool 0) 5).numTotal = 0 ∧
    (makeRequest (NewBlockPool 0) 5).numPending = 0 ∧
    (makeRequest (NewBlockPool 0) 5).requests 5
      = some { height := 5, peerId := "", block := none } ∧
    (makeRequest (NewBlockPool 0) 5).height = 0 := by
  refine ⟨?_, ?_, ?_, ?_⟩ <;> decide

/-- C3 (amended): makeRequest never panics. It always inserts an empty
unassigned request at the given height, leaving the base height and the
registry unchanged; it increments numTotal and numPending by one exactly when
the height equals base plus total, and leaves both counters unchanged
otherwise. The numTotal bounds match its int32 range on reachable states. -/
theorem makeRequest_spec (s : BlockPool) (h : Nat) (hT0 : 0 ≤ s.numTotal)
    (hTsmall : s.numTotal < 18446744073709551616) :
    ((makeRequest s h).requests h = some { height := h, peerId := "", block := none } ∧
     (∀ h2, h2 ≠ h → (makeRequest s h).requests h2 = s.requests h2) ∧
     (makeRequest s h).height = s.height ∧
     (makeRequest s h).peers = s.peers) ∧
    (h = s.height + s.numTotal.toNat →
      (makeRequest s h).numTotal = s.numTotal + 1 ∧
      (makeRequest s h).numPending = s.numPending + 1) ∧
    (h ≠ s.height + s.numTotal.toNat →
      (makeRequest s h).numTotal = s.numTotal ∧
      (makeRequest s h).numPending = s.numPending) := by
  have hn : nextHeight s = s.height + s.numTotal.toNat := by
    unfold nextHeight uint64
    congr 1
    omega
  by_cases hc : nextHeight s = h
  · have heq : makeRequest s h
        = { s with
            requests := fun h2 =>
              if h2 = h then some { height := h, peerId := "", block := none }
              else s.requests h2,
            numTotal := s.numTotal + 1,
            numPending := s.numPending + 1 } := by
      unfold makeRequest
      rw [if_pos hc]
    rw [heq]
    refine ⟨⟨?_, ?_, rfl, rfl⟩, fun _ => ⟨rfl, rfl⟩, ?_⟩
    · show (if h = h then some { height := h, peerId := "", block := none } else s.requests h)
        = some { height := h, peerId := "", block := none }
      rw [if_pos rfl]
    · intro h2 hne
      show (if h2 = h then some { height := h, peerId := "", block := none } else s.requests h2)
        = s.requests h2
      rw [if_neg hne]
    · intro hne
      exfalso
      apply hne
      rw [← hc, hn]
  · have heq : makeRequest s h
        = { s with
            requests := fun h2 =>
              if h2 = h then some { height := h, peerId := "", block := none }
              else s.requests h2 } := by
      unfold makeRequest
      rw [if_neg hc]
    rw [heq]
    refine ⟨⟨?_, ?_, rfl, rfl⟩, ?_, fun _ => ⟨rfl, rfl⟩⟩
    · show (if h = h then some { height := h, peerId := "", block := none } else s.requests h)
        = some { height := h, peerId := "", block := none }
      rw [if_pos rfl]
    · intro h2 hne
      show (if h2 = h then some { height := h, peerId := "", block := none } else s.requests h2)
        = s.requests h2
      rw [if_neg hne]
    · intro he
      exact absurd (hn.trans he.symm) hc

/-- C3 witness: on a fresh pool at base 7, makeRequest at the contiguous
height 7 increments numTotal. -/
theorem makeRequest_spec_witness :
    (makeRequest (NewBlockPool 7) 7).numTotal = (NewBlockPool 7).numTotal + 1 :=
  ((makeRequest_spec (NewBlockPool 7) 7 (by decide) (by decide)).2.1 (by decide)).1

set_option maxHeartbeats 2000000 in
/-- C4 counterexample: the bound numPending less or equal maxPendingRequests
is not an invariant of the reachable states. Filling 51 admitted heights one
at a time and then invalidating all 51 filled blocks with RedoRequest yields
a reachable state with numPending equal to 51. -/
theorem pending_cap_counterexample :
    ¬ (∀ s, Reachable s → s.numPending ≤ maxPendingRequests) := by
  intro hcl
  have h1 : (exec (NewBlockPool 0) c4BadOps).map BlockPool.numPending = some 51 := by decide
  cases hE : exec (NewBlockPool 0) c4BadOps with
  | none => rw [hE] at h1; exact absurd h1 (by simp)
  | some s =>
    have h2 := hcl s ⟨0, c4BadOps, hE⟩
    rw [hE] at h1
    simp only [Option.map_some'] at h1
    injection h1 with h1
    rw [h1] at h2
    exact absurd h2 (by decide)

/-- C4 (amended): in every reachable coordinator state, numPending is
nonnegative, at most numTotal, and numTotal is at most maxTotalRequests (100);
the further bound numPending at most maxPendingRequests (50) is respected by
admission but is not an invariant, because RedoRequest increments numPending
without any cap check. -/
theorem pool_counters_bounded (s : BlockPool) (hs : Reachable s) :
    0 ≤ s.numPending ∧ s.numPending ≤ s.numTotal ∧ s.numTotal ≤ maxTotalRequests := by
  obtain ⟨hT0, hT100, hdom, hcnt⟩ := reachable_poolInv s hs
  have hle := countUnfilled_le s.requests s.height s.numTotal.toNat
  refine ⟨?_, ?_, hT100⟩
  · omega
  · omega

/-- C4 witness: the fresh pool is reachable and satisfies the bounds. -/
theorem pool_counters_bounded_witness :
    0 ≤ (NewBlockPool 0).numPending ∧
    (NewBlockPool 0).numPending ≤ (NewBlockPool 0).numTotal ∧
    (NewBlockPool 0).numTotal ≤ maxTotalRequests :=
  pool_counters_bounded (NewBlockPool 0) ⟨0, [], rfl⟩

/-- C6: pickIncrAvailablePeer returns a peer only when that peer had an
advertised height at least the wanted minimum and an in-flight count strictly
below maxRequestsPerPeer, and the returned record carries the counter already
incremented and is stored back in the registry; it returns none exactly when
every registered peer is at the cap or too short, so a peer exactly at the
cap is never selected. -/
theorem pickIncrAvailablePeer_spec (s : BlockPool) (minH : Nat) :
    ((pickIncrAvailablePeer s minH).1 = none ↔
      ∀ q ∈ s.peers, maxRequestsPerPeer ≤ q.numRequests ∨ q.height < minH) ∧
    (∀ p, (pickIncrAvailablePeer s minH).1 = some p →
      ∃ q ∈ s.peers, q.numRequests < maxRequestsPerPeer ∧ minH ≤ q.height ∧
        p = { q with numRequests := q.numRequests + 1 } ∧
        p ∈ (pickIncrAvailablePeer s minH).2.peers) :=
  ⟨pickIncrL_none_iff minH s.peers, fun p hp => pickIncrL_some minH s.peers p hp⟩

/-- C6 witness: a registry whose only peer sits exactly at the cap yields no
selection. -/
theorem pickIncrAvailablePeer_spec_witness :
    (pickIncrAvailablePeer demoCapPool 5).1 = none :=
  (pickIncrAvailablePeer_spec demoCapPool 5).1.mpr (by decide)

/-- C7 counterexample: the shape restriction fails. Admitting heights 0 and 1
on a fresh pool and filling only height 1 reaches a state where PeekTwoBlocks
returns the base block absent and the next block present. -/
theorem peekTwo_shape_counterexample :
    ¬ (∀ s, Reachable s →
        ((PeekTwoBlocks s).1.2.isSome = true → (PeekTwoBlocks s).1.1.isSome = true)) := by
  intro hcl
  have h1 : (exec (NewBlockPool 0) c7Ops).map
      (fun s => ((PeekTwoBlocks s).1.1.isSome, (PeekTwoBlocks s).1.2.isSome))
      = some (false, true) := by decide
  cases hE : exec (NewBlockPool 0) c7Ops with
  | none => rw [hE] at h1; exact absurd h1 (by simp)
  | some s =>
    rw [hE] at h1
    simp only [Option.map_some'] at h1
    injection h1 with h1
    have h3 : (PeekTwoBlocks s).1.1.isSome = false := congrArg Prod.fst h1
    have h4 : (PeekTwoBlocks s).1.2.isSome = true := congrArg Prod.snd h1
    have h5 := hcl s ⟨0, c7Ops, hE⟩ h4
    rw [h3] at h5
    exact absurd h5 (by simp)

/-- C7 (amended): PeekTwoBlocks reads the two frontmost slots independently
and without blocking: the first component is exactly the block stored at the
base height and the second exactly the block stored at the next height, each
present exactly when hasBlock holds there; the combination absent at base
with present at base plus one is therefore also a possible return shape. -/
theorem peekTwoBlocks_slots (s : BlockPool) :
    (PeekTwoBlocks s).1.1 = (s.requests s.height).bind bpRequest.block ∧
    (PeekTwoBlocks s).1.2 = (s.requests (s.height + 1)).bind bpRequest.block ∧
    (PeekTwoBlocks s).1.1.isSome = (hasBlock s s.height).1 ∧
    (PeekTwoBlocks s).1.2.isSome = (hasBlock s (s.height + 1)).1 := by
  refine ⟨rfl, rfl, ?_, ?_⟩
  · unfold PeekTwoBlocks hasBlock
    dsimp only
    cases hr : s.requests s.height with
    | none => rfl
    | some r => rfl
  · unfold PeekTwoBlocks hasBlock
    dsimp only
    cases hr : s.requests (s.height + 1) with
    | none => rfl
    | some r => rfl

/-- C8 counterexample: the lower bound zero on a live peer counter fails.
Registering peerA and then calling decrPeer once reaches a state whose only
registry record carries numRequests equal to minus one. -/
theorem peer_negative_counterexample :
    ¬ (∀ s, Reachable s → ∀ p ∈ s.peers, 0 ≤ p.numRequests) := by
  intro hcl
  have h1 : (exec (NewBlockPool 0) c8Ops).map (fun s => s.peers.map bpPeer.numRequests)
      = some [-1] := by decide
  cases hE : exec (NewBlockPool 0) c8Ops with
  | none => rw [hE] at h1; exact absurd h1 (by simp)
  | some s =>
    rw [hE] at h1
    simp only [Option.map_some'] at h1
    injection h1 with h1
    cases hps : s.peers with
    | nil => rw [hps] at h1; exact absurd h1 (by simp)
    | cons p rest =>
      rw [hps] at h1
      simp only [List.map_cons] at h1
      injection h1 with h2 h3
      have h4 := hcl s ⟨0, c8Ops, hE⟩ p (by rw [hps]; exact List.mem_cons_self p rest)
      rw [h2] at h4
      exact absurd h4 (by decide)

/-- C8 (amended): after every sequence of operations, every peer present in
the registry has numRequests at most maxRequestsPerPeer (20), and
pickIncrAvailablePeer never drives a counter above that cap; the claimed
lower bound zero does not hold, because decrPeer decrements a live record
unconditionally. -/
theorem peer_counter_cap (s : BlockPool) (hs : Reachable s) :
    ∀ p ∈ s.peers, p.numRequests ≤ maxRequestsPerPeer :=
  reachable_peerInv s hs

/-- C8 witness: the pool reached by registering peerA keeps the fresh record
at or below the cap. -/
theorem peer_counter_cap_witness :
    ({ id := peerA, height := 5, numRequests := 0 } : bpPeer).numRequests ≤ maxRequestsPerPeer :=
  peer_counter_cap demoReached ⟨0, [Op.setPeerHeight peerA 5], rfl⟩
    { id := peerA, height := 5, numRequests := 0 } (by decide)

/-- C9: one engagement of requestRoutine with a chosen peer sends at most
maxTries (3) requests to that peer; as soon as one observation shows the
block present at the height or the base advanced past it, the worker
decrements that peer counter and terminates without removing the peer or
emitting a timeout; when all maxTries observations show neither, the worker
sends exactly maxTries requests, removes the peer, emits exactly one timeout
without decrementing, and goes back to peer selection for the same height. -/
theorem requestRoutine_round_spec (h : Nat) (obs : Nat → WObs) :
    (requestRound h obs).sends ≤ maxTries ∧
    ((∃ i, i < maxTries ∧ stopObs h (obs i) = true) →
      (requestRound h obs).decremented = true ∧ (requestRound h obs).removedPeer = false ∧
      (requestRound h obs).timeouts = 0 ∧ (requestRound h obs).terminated = true) ∧
    ((∀ i, i < maxTries → stopObs h (obs i) = false) →
      (requestRound h obs).sends = maxTries ∧ (requestRound h obs).removedPeer = true ∧
      (requestRound h obs).timeouts = 1 ∧ (requestRound h obs).decremented = false ∧
      (requestRound h obs).terminated = false) := by
  refine ⟨?_, ?_, ?_⟩
  · have hle := tryLoop_sends_le h ((List.range maxTries).map obs)
    simpa using hle
  · rintro ⟨i, hi, hs⟩
    exact tryLoop_stop h ((List.range maxTries).map obs)
      ⟨obs i, List.mem_map_of_mem obs (List.mem_range.2 hi), hs⟩
  · intro hall
    have hobs : ∀ o ∈ (List.range maxTries).map obs, stopObs h o = false := by
      intro o ho
      obtain ⟨i, hi, hoe⟩ := List.mem_map.1 ho
      rw [← hoe]
      exact hall i (List.mem_range.1 hi)
    have hres := tryLoop_exhaust h ((List.range maxTries).map obs) hobs
    refine ⟨?_, hres.2.1, hres.2.2.1, hres.2.2.2.1, hres.2.2.2.2⟩
    rw [show (requestRound h obs).sends = ((List.range maxTries).map obs).length from hres.1]
    simp

/-- C9 witness: with observations that report the block present at once, the
round decrements the peer counter. -/
theorem requestRoutine_round_spec_witness :
    (requestRound 5 demoObs).decremented = true :=
  ((requestRoutine_round_spec 5 demoObs).2.1 ⟨0, by decide, by decide⟩).1

/-- C10: the read operations GetStatus, PeekTwoBlocks and hasBlock leave the
whole coordinator state, that is the request table, the base height, the two
counters and the peer registry, exactly as it was. -/
theorem readonly_ops_frame (s : BlockPool) (h : Nat) :
    (GetStatus s).2 = s ∧ (PeekTwoBlocks s).2 = s ∧ (hasBlock s h).2 = s :=
  ⟨rfl, rfl, rfl⟩
